import Mathlib

/-!
Verification development for the de Bruijn graph edge-list generator
(`src/graphGen/deBruijn/deBruijnGraphGen.hpp`).

The repository file `deBruijnGraphGen.hpp` fixes the k-mer type to
`bliss::common::Kmer<31, DNA>` and materializes an edge list from the
distributed de Bruijn node index: for every locally stored node it decodes
the incoming and outgoing neighbor k-mers and appends, for each neighbor,
the pair `(word0 (min (src, revComp src)), word0 (min (nbr, revComp nbr)))`
to the caller's vector (`populateEdgeList`, lines 62-122).

The k-mer codec, the insert/merge rule of the distributed node map and the
neighbor decoding live in the external BLISS library, which is not part of
this repository's sources; those parts are modelled from the design
specification, as marked on each definition.

A DNA symbol is an element of `Fin 4` (A=0, C=1, G=2, T=3, the DNA
encoding used by the source); a k-mer is a list of symbols, packed into an
integer two bits per symbol, first symbol most significant, so the numeric
order on packed values is the lexicographic order on windows (the order
`lex_less` canonicalizes by).
-/

namespace DeBruijn

/-- Alphabet of the source: 4 nucleotides, `bliss::common::DNA`. -/
abbrev Sym := Fin 4

/-- Modelled from the spec: the nucleotide complement (A↔T, C↔G), i.e.
`0↔3, 1↔2` in the 2-bit DNA encoding. -/
def compl (s : Sym) : Sym := ⟨3 - s.val, by omega⟩

/-- Modelled from the spec: reverse complement of a packed window —
reverse the symbol order and complement each symbol. -/
def revComp (x : List Sym) : List Sym := (x.map compl).reverse

/-- Modelled from the spec: the packed-integer value of a window, two bits
per symbol, first symbol most significant. -/
def encode : List Sym → Nat
  | [] => 0
  | s :: rest => s.val * 4 ^ rest.length + encode rest

/-- Canonical form: `std::min(x, x.reverse_complement())` under the
packed-integer ordering (source line 104; the same rule as the map's
`lex_less` key transform). -/
def canonical (x : List Sym) : List Sym :=
  if encode x ≤ encode (revComp x) then x else revComp x

/-- First machine word of the packed representation (`getData()[0]`); the
word type is `uint64_t` (source line 101), and for k = 31 the whole packed
value fits in it. -/
def word0 (x : List Sym) : Nat := encode x % 2 ^ 64

/-- Extraction tuple: one k-mer window of a read together with its
predecessor symbol (the symbol just before the window, if any) and its
successor symbol (the symbol just after the window, if any). -/
structure KTuple where
  km : List Sym
  pred : Option Sym
  succ : Option Sym
deriving DecidableEq, Repr

/-- Modelled from the spec: the tuple emitted for window position `i` of
read `r` (window = k symbols starting at `i`; the first window has no
predecessor, the last no successor). -/
def tupleAt (r : List Sym) (k i : Nat) : KTuple :=
  ⟨(r.drop i).take k, if i = 0 then none else r[i - 1]?, r[i + k]?⟩

/-- Modelled from the spec: the Read-to-K-mer Extractor — slide a window of
length k over the read, emitting `L - k + 1` tuples for a read of length
`L ≥ k` and the empty sequence when `L < k`. -/
def extract (k : Nat) (r : List Sym) : List KTuple :=
  (List.range (r.length + 1 - k)).map (tupleAt r k)

/-- Concatenated extraction tuples of a whole read set. -/
def allTuples (k : Nat) (reads : List (List Sym)) : List KTuple :=
  reads.flatMap (extract k)

/-- Modelled from the spec: incoming-extension bit group of the 8-bit
edge-presence record — bit `i` (0-3) marks an observed predecessor
symbol `i`. -/
def inMask : Option Sym → Nat
  | none => 0
  | some s => 2 ^ s.val

/-- Modelled from the spec: outgoing-extension bit group — bit `4 + j`
marks an observed successor symbol `j`. -/
def outMask : Option Sym → Nat
  | none => 0
  | some s => 2 ^ (4 + s.val)

/-- Modelled from the spec: the record contribution of one insert. If the
window is already canonical the predecessor/successor symbols map directly
to the incoming/outgoing bit groups; if canonicalization flipped the
window, the roles swap and the symbols are complemented. -/
def insertMask (t : KTuple) : Nat :=
  if canonical t.km = t.km then inMask t.pred ||| outMask t.succ
  else inMask (t.succ.map compl) ||| outMask (t.pred.map compl)

/-- Modelled from the spec: merging two edge-presence records for the same
k-mer is the bitwise OR of their masks. -/
def mergeRecord (a b : Nat) : Nat := a ||| b

/-- Modelled from the spec: one insert into the node map (viewed as the
total function canonical-k-mer → record, absent keys holding the empty
record 0): OR the tuple's mask into the record of its canonical k-mer. -/
def applyInsert (m : List Sym → Nat) (t : KTuple) : List Sym → Nat :=
  fun c => if c = canonical t.km then mergeRecord (m c) (insertMask t) else m c

/-- Modelled from the spec: the accumulated record of canonical k-mer `c`
after all tuples of `ts` have been inserted (in list order). -/
def recordOf (c : List Sym) (ts : List KTuple) : Nat :=
  ts.foldr (fun t a => if canonical t.km = c then insertMask t ||| a else a) 0

/-- Modelled from the spec: the distinct canonical k-mers present in the
node map after inserting all tuples of `ts` (the keys `iterate` yields). -/
def nodesOf (ts : List KTuple) : List (List Sym) :=
  (ts.map (fun t => canonical t.km)).dedup

/-- Modelled from the spec: `node_utils::get_in_neighbors` — for each set
bit `i` in 0-3, the neighbor formed by prepending symbol `i` to the node's
first k-1 symbols. -/
def get_in_neighbors (c : List Sym) (rec : Nat) : List (List Sym) :=
  (List.finRange 4).filterMap
    (fun i => if rec.testBit i.val then some (i :: c.dropLast) else none)

/-- Modelled from the spec: `node_utils::get_out_neighbors` — for each set
bit `4 + j`, the neighbor formed by appending symbol `j` to the node's
last k-1 symbols. -/
def get_out_neighbors (c : List Sym) (rec : Nat) : List (List Sym) :=
  (List.finRange 4).filterMap
    (fun j => if rec.testBit (4 + j.val) then some (c.tail ++ [j]) else none)

/-- Edges emitted for one node (source lines 88-118): one entry per
incoming neighbor then one per outgoing neighbor, each entry the pair of
first words of the canonical forms of source and neighbor. -/
def emitNode (c : List Sym) (rec : Nat) : List (Nat × Nat) :=
  (get_in_neighbors c rec).map (fun n => (word0 (canonical c), word0 (canonical n)))
    ++ (get_out_neighbors c rec).map (fun n => (word0 (canonical c), word0 (canonical n)))

/-- The source's `populateEdgeList`: build the index from the read set
(the sequence source behind `fileName`), then iterate the local nodes and
append (`emplace_back`) each node's edges to the caller's `edgeList`. -/
def populateEdgeList (edgeList : List (Nat × Nat)) (k : Nat)
    (reads : List (List Sym)) : List (Nat × Nat) :=
  (nodesOf (allTuples k reads)).foldl
    (fun acc c => acc ++ emitNode c (recordOf c (allTuples k reads))) edgeList

/-- The edge list produced from an initially empty vector. -/
def buildEdgeList (k : Nat) (reads : List (List Sym)) : List (Nat × Nat) :=
  populateEdgeList [] k reads

/-- Modelled from the spec: the distributed build with `numWorkers` workers.
Each canonical k-mer is owned by worker `hash c % numWorkers`; every worker
accumulates (via the exchange) the full record of each k-mer it owns and
emits that node's edges; the global edge list concatenates the workers'
lists. -/
def buildEdgeListDistrib (k numWorkers : Nat) (hash : List Sym → Nat)
    (reads : List (List Sym)) : List (Nat × Nat) :=
  (List.range numWorkers).flatMap (fun w =>
    ((nodesOf (allTuples k reads)).filter (fun c => hash c % numWorkers == w)).flatMap
      (fun c => emitNode c (recordOf c (allTuples k reads))))

/-- Raw read symbol: `some s` for a symbol of the 4-letter alphabet,
`none` for an ambiguous/unknown input character. -/
abbrev RawSym := Option Sym

/-- Validity check of a whole window: `some` of the decoded window when
every symbol is in the alphabet, `none` otherwise. -/
def allSome : List RawSym → Option (List Sym)
  | [] => some []
  | none :: _ => none
  | some s :: rest => (allSome rest).map (s :: ·)

/-- Modelled from the spec: the tuple of window `i` of a raw read — emitted
only when all k window symbols are valid; an out-of-alphabet predecessor or
successor is treated as absent. -/
def rawTupleAt (r : List RawSym) (k i : Nat) : Option KTuple :=
  (allSome ((r.drop i).take k)).map
    (fun w => ⟨w, if i = 0 then none else (r[i - 1]?).join, (r[i + k]?).join⟩)

/-- Modelled from the spec: extraction over a raw read — windows containing
an out-of-alphabet symbol emit nothing, the other windows emit their
tuples; extraction is total (no symbol-level error escapes). -/
def extractRaw (k : Nat) (r : List RawSym) : List KTuple :=
  (List.range (r.length + 1 - k)).filterMap (rawTupleAt r k)

/-- Count of the valid windows of a raw read. -/
def validWindowCount (k : Nat) (r : List RawSym) : Nat :=
  ((List.range (r.length + 1 - k)).filter
    (fun i => (allSome ((r.drop i).take k)).isSome)).length

/-- Example tuple used by witnesses. -/
def tupleEx1 : KTuple := ⟨[(0 : Fin 4)], none, some (1 : Fin 4)⟩

/-- Example tuple used by witnesses. -/
def tupleEx2 : KTuple := ⟨[(2 : Fin 4)], some (3 : Fin 4), none⟩

/-- Transformation, read off the insert rule, relating the tuple of a window
of a read to the tuple of the corresponding window of the reverse-complement
read: the window is reverse-complemented, the predecessor/successor roles
swap and the symbols are complemented. -/
def flipTuple (t : KTuple) : KTuple :=
  ⟨revComp t.km, t.succ.map compl, t.pred.map compl⟩

theorem compl_compl (s : Sym) : compl (compl s) = s := by
  fin_cases s <;> rfl

theorem compl_ne_self (s : Sym) : compl s ≠ s := by
  fin_cases s <;> decide

theorem option_compl_compl (o : Option Sym) : (o.map compl).map compl = o := by
  cases o with
  | none => rfl
  | some s => simp [compl_compl]

theorem length_revComp (x : List Sym) : (revComp x).length = x.length := by
  simp [revComp]

theorem revComp_revComp (x : List Sym) : revComp (revComp x) = x := by
  unfold revComp
  rw [List.map_reverse, List.reverse_reverse, List.map_map,
    show compl ∘ compl = id from funext compl_compl, List.map_id]

theorem encode_lt (x : List Sym) : encode x < 4 ^ x.length := by
  induction x with
  | nil => simp [encode]
  | cons s rest ih =>
    have hs : s.val + 1 ≤ 4 := s.isLt
    calc s.val * 4 ^ rest.length + encode rest
        < s.val * 4 ^ rest.length + 4 ^ rest.length := Nat.add_lt_add_left ih _
      _ = (s.val + 1) * 4 ^ rest.length := by ring
      _ ≤ 4 * 4 ^ rest.length := Nat.mul_le_mul_right _ hs
      _ = 4 ^ (rest.length + 1) := by rw [pow_succ]; ring

theorem encode_inj : ∀ {x y : List Sym},
    x.length = y.length → encode x = encode y → x = y := by
  intro x
  induction x with
  | nil =>
    intro y hlen _
    exact (List.length_eq_zero.mp hlen.symm).symm
  | cons s rest ih =>
    intro y hlen henc
    cases y with
    | nil => simp at hlen
    | cons t ys =>
      have hl : rest.length = ys.length := by simpa using hlen
      have hq : (0 : Nat) < 4 ^ rest.length := Nat.pos_pow_of_pos _ (by omega)
      have h1 : encode rest < 4 ^ rest.length := encode_lt rest
      have h2 : encode ys < 4 ^ rest.length := by
        rw [hl]; exact encode_lt ys
      have he : s.val * 4 ^ rest.length + encode rest
          = t.val * 4 ^ rest.length + encode ys := by
        simpa [encode, hl] using henc
      have hd : s.val = t.val := by
        have hs : (s.val * 4 ^ rest.length + encode rest) / 4 ^ rest.length
            = s.val := by
          rw [Nat.mul_comm, Nat.mul_add_div hq, Nat.div_eq_of_lt h1]
          omega
        have ht : (t.val * 4 ^ rest.length + encode ys) / 4 ^ rest.length
            = t.val := by
          rw [Nat.mul_comm, Nat.mul_add_div hq, Nat.div_eq_of_lt h2]
          omega
        rw [← hs, ← ht, he]
      have hst : s = t := Fin.ext hd
      have hrest : encode rest = encode ys := by
        have := he
        rw [hd] at this
        omega
      rw [hst, ih hl hrest]

theorem canonical_cases (x : List Sym) :
    canonical x = x ∨ canonical x = revComp x := by
  unfold canonical
  split
  · exact Or.inl rfl
  · exact Or.inr rfl

theorem canonical_revComp (x : List Sym) :
    canonical (revComp x) = canonical x := by
  unfold canonical
  rw [revComp_revComp]
  rcases lt_trichotomy (encode x) (encode (revComp x)) with h | h | h
  · rw [if_neg (by omega), if_pos (by omega)]
  · have hx : revComp x = x :=
      encode_inj (length_revComp x) h.symm
    rw [hx]
  · rw [if_pos (by omega), if_neg (by omega)]

theorem canonical_idem (x : List Sym) :
    canonical (canonical x) = canonical x := by
  rcases canonical_cases x with h | h
  · rw [h]; exact h
  · rw [h, canonical_revComp, ← h]

/-- Claim C2: for every k-mer `x`, the canonical form is `min(x, reverseComplement x)`
under the packed-integer ordering (the `b < a ? b : a` form of `std::min`),
canonicalization is idempotent, and a k-mer and its reverse complement share
the same canonical form. -/
theorem C2_canonical_min (x : List Sym) :
    canonical x = (if encode (revComp x) < encode x then revComp x else x)
    ∧ canonical (canonical x) = canonical x
    ∧ canonical (revComp x) = canonical x := by
  refine ⟨?_, canonical_idem x, canonical_revComp x⟩
  unfold canonical
  rcases le_or_lt (encode x) (encode (revComp x)) with h | h
  · rw [if_pos h, if_neg (by omega)]
  · rw [if_neg (by omega), if_pos h]

theorem recordOf_perm (c : List Sym) {l₁ l₂ : List KTuple}
    (h : l₁.Perm l₂) : recordOf c l₁ = recordOf c l₂ := by
  unfold recordOf
  induction h with
  | nil => rfl
  | cons t _ ih => simp only [List.foldr_cons, ih]
  | swap t u l =>
    simp only [List.foldr_cons]
    by_cases ht : canonical t.km = c <;> by_cases hu : canonical u.km = c <;>
      simp only [ht, hu, if_pos, if_neg, if_true, if_false]
    rw [← Nat.lor_assoc, Nat.lor_comm (insertMask u) (insertMask t),
      Nat.lor_assoc]
  | trans _ _ ih₁ ih₂ => exact ih₁.trans ih₂

theorem recordOf_reverse (c : List Sym) (l : List KTuple) :
    recordOf c l.reverse = recordOf c l :=
  recordOf_perm c (List.reverse_perm l)

theorem recordOf_map_eq (c : List Sym) (f : KTuple → KTuple) :
    ∀ (l : List KTuple),
      (∀ t ∈ l, canonical (f t).km = canonical t.km
        ∧ insertMask (f t) = insertMask t) →
      recordOf c (l.map f) = recordOf c l := by
  intro l
  induction l with
  | nil => intro _; rfl
  | cons t l ih =>
    intro h
    have ht := h t (List.mem_cons_self t l)
    have hrest := ih (fun u hu => h u (List.mem_cons_of_mem t hu))
    unfold recordOf at hrest ⊢
    simp only [List.map_cons, List.foldr_cons, ht.1, ht.2, hrest]

/-- Claim C1: merging two edge-presence records of the same canonical k-mer is
bitwise OR of their masks; the merge is commutative and idempotent, so
inserting the same (k-mer, predecessor, successor) tuple twice leaves the
map exactly as one insert does, and the final record of any canonical
k-mer is invariant under reordering of the contributing tuples. -/
theorem C1_record_merge (a b : Nat) (m : List Sym → Nat) (t : KTuple)
    (c : List Sym) (l₁ l₂ : List KTuple) (h : l₁.Perm l₂) :
    mergeRecord a b = a ||| b
    ∧ mergeRecord a b = mergeRecord b a
    ∧ mergeRecord a a = a
    ∧ applyInsert (applyInsert m t) t = applyInsert m t
    ∧ recordOf c l₁ = recordOf c l₂ := by
  refine ⟨rfl, Nat.lor_comm a b, Nat.or_self a, ?_, recordOf_perm c h⟩
  funext d
  unfold applyInsert mergeRecord
  by_cases hd : d = canonical t.km
  · simp only [hd, if_pos, if_true, Nat.lor_assoc, Nat.or_self]
  · simp only [if_neg hd]

/-- Witness for C1 at concrete records, a concrete map and tuples, and a
concrete transposition of the contributing tuple list. -/
theorem C1_record_merge_witness :
    mergeRecord 5 3 = 5 ||| 3
    ∧ mergeRecord 5 3 = mergeRecord 3 5
    ∧ mergeRecord 5 5 = 5
    ∧ applyInsert (applyInsert (fun _ => 0) tupleEx1) tupleEx1
        = applyInsert (fun _ => 0) tupleEx1
    ∧ recordOf [(0 : Fin 4)] [tupleEx1, tupleEx2]
        = recordOf [(0 : Fin 4)] [tupleEx2, tupleEx1] :=
  C1_record_merge 5 3 (fun _ => 0) tupleEx1 [(0 : Fin 4)]
    [tupleEx1, tupleEx2] [tupleEx2, tupleEx1]
    (List.Perm.swap tupleEx2 tupleEx1 [])

theorem foldl_append_emit (f : List Sym → List (Nat × Nat)) :
    ∀ (l : List (List Sym)) (init : List (Nat × Nat)),
      l.foldl (fun acc c => acc ++ f c) init = init ++ l.flatMap f := by
  intro l
  induction l with
  | nil => intro init; simp
  | cons c l ih =>
    intro init
    simp only [List.foldl_cons, List.flatMap_cons, ih, List.append_assoc]

theorem populateEdgeList_eq_append (pre : List (Nat × Nat)) (k : Nat)
    (reads : List (List Sym)) :
    populateEdgeList pre k reads = pre ++ buildEdgeList k reads := by
  unfold populateEdgeList buildEdgeList populateEdgeList
  rw [foldl_append_emit, foldl_append_emit]
  simp

theorem buildEdgeList_eq_flatMap (k : Nat) (reads : List (List Sym)) :
    buildEdgeList k reads
      = (nodesOf (allTuples k reads)).flatMap
          (fun c => emitNode c (recordOf c (allTuples k reads))) := by
  unfold buildEdgeList populateEdgeList
  rw [foldl_append_emit]
  simp

theorem mem_buildEdgeList (e : Nat × Nat) (k : Nat) (reads : List (List Sym)) :
    e ∈ buildEdgeList k reads
      ↔ ∃ c ∈ nodesOf (allTuples k reads),
          e ∈ emitNode c (recordOf c (allTuples k reads)) := by
  rw [buildEdgeList_eq_flatMap, List.mem_flatMap]

/-- Claim C10: `populateEdgeList` only appends to the caller's edge list — the
pre-existing elements survive unchanged at their original positions, and
all edges generated by the call are placed after them. -/
theorem C10_populate_append_only (pre : List (Nat × Nat)) (k : Nat)
    (reads : List (List Sym)) :
    (populateEdgeList pre k reads).take pre.length = pre
    ∧ (populateEdgeList pre k reads).drop pre.length = buildEdgeList k reads
    ∧ populateEdgeList pre k reads = pre ++ buildEdgeList k reads := by
  have h := populateEdgeList_eq_append pre k reads
  refine ⟨?_, ?_, h⟩
  · rw [h, List.take_left]
  · rw [h, List.drop_left]

theorem extract_length (k : Nat) (r : List Sym) :
    (extract k r).length = r.length + 1 - k := by
  simp [extract]

/-- Claim C7: a read of length `L ≥ k` yields exactly `L - k + 1` extraction
tuples, the first without predecessor and the last without successor; a
read shorter than k yields the empty sequence and contributes no nodes and
no edges to the built graph. -/
theorem C7_extraction_count (k : Nat) (r : List Sym) :
    (extract k r).length = r.length + 1 - k
    ∧ (k ≤ r.length →
        (extract k r).length = r.length - k + 1
        ∧ (extract k r)[0]?.map KTuple.pred = some none
        ∧ (extract k r)[r.length - k]?.map KTuple.succ = some none)
    ∧ (r.length < k →
        extract k r = []
        ∧ nodesOf (allTuples k [r]) = []
        ∧ buildEdgeList k [r] = []) := by
  refine ⟨extract_length k r, fun hk => ⟨?_, ?_, ?_⟩, fun hk => ?_⟩
  · rw [extract_length]; omega
  · have h0 : 0 < (extract k r).length := by rw [extract_length]; omega
    rw [List.getElem?_eq_getElem h0]
    simp only [extract, List.getElem_map, List.getElem_range, tupleAt,
      Option.map_some]
    simp
  · have hm : r.length - k < (extract k r).length := by
      rw [extract_length]; omega
    rw [List.getElem?_eq_getElem hm]
    simp only [extract, List.getElem_map, List.getElem_range, tupleAt,
      Option.map_some]
    have : r.length - k + k = r.length := by omega
    rw [this, List.getElem?_eq_none (le_refl r.length)]
    rfl
  · have he : extract k r = [] := by
      unfold extract
      rw [show r.length + 1 - k = 0 by omega]
      rfl
    have ha : allTuples k [r] = extract k r := by simp [allTuples]
    refine ⟨he, by rw [ha, he]; rfl, ?_⟩
    rw [buildEdgeList_eq_flatMap, ha, he]
    rfl

/-- Witness for C7: a read of length 3 with k = 2 (long branch) and a read
of length 1 with k = 5 (short branch). -/
theorem C7_extraction_count_witness :
    ((extract 2 [(0 : Fin 4), 1, 2]).length = 2
      ∧ (extract 2 [(0 : Fin 4), 1, 2])[0]?.map KTuple.pred = some none
      ∧ (extract 2 [(0 : Fin 4), 1, 2])[1]?.map KTuple.succ = some none)
    ∧ (extract 5 [(0 : Fin 4)] = []
      ∧ nodesOf (allTuples 5 [[(0 : Fin 4)]]) = []
      ∧ buildEdgeList 5 [[(0 : Fin 4)]] = []) :=
  ⟨(C7_extraction_count 2 [(0 : Fin 4), 1, 2]).2.1 (by decide),
   (C7_extraction_count 5 [(0 : Fin 4)]).2.2 (by decide)⟩

theorem mem_nodesOf (c : List Sym) (ts : List KTuple) :
    c ∈ nodesOf ts ↔ ∃ t ∈ ts, canonical t.km = c := by
  simp [nodesOf, List.mem_dedup, List.mem_map]

/-- Claim C9: every key yielded by iterating the constructed index is already in
canonical form, so the re-canonicalization `min(key, revComp key)` done at
edge emission is the identity on stored keys (also at the `word0` level at
which the edge is recorded). -/
theorem C9_keys_canonical (k : Nat) (reads : List (List Sym)) (c : List Sym)
    (h : c ∈ nodesOf (allTuples k reads)) :
    canonical c = c ∧ word0 (canonical c) = word0 c := by
  obtain ⟨t, _, ht⟩ := (mem_nodesOf c (allTuples k reads)).mp h
  have hc : canonical c = c := by rw [← ht, canonical_idem]
  exact ⟨hc, by rw [hc]⟩

/-- Witness for C9 at the index built from the single read "A" with k = 1. -/
theorem C9_keys_canonical_witness :
    canonical [(0 : Fin 4)] = [(0 : Fin 4)]
    ∧ word0 (canonical [(0 : Fin 4)]) = word0 [(0 : Fin 4)] :=
  C9_keys_canonical 1 [[(0 : Fin 4)]] [(0 : Fin 4)] (by decide)

/-- Claim C3: the materializer emits, per stored node, one edge-list entry for
each decoded incoming neighbor and one for each decoded outgoing neighbor,
every entry being the pair of first words of the canonical packed forms of
source and neighbor; and the list is not deduplicated against the edges
emitted from the neighbor's own node — concretely, the build over the read
ACG records the AC–CG edge once from each endpoint, and the build over the
read AA (k = 1) keeps two identical entries. -/
theorem C3_materializer_entries (c : List Sym) (rec : Nat) :
    ((emitNode c rec).length
        = (get_in_neighbors c rec).length + (get_out_neighbors c rec).length)
    ∧ (∀ p ∈ emitNode c rec, ∃ n,
        (n ∈ get_in_neighbors c rec ∨ n ∈ get_out_neighbors c rec)
        ∧ p = (word0 (canonical c), word0 (canonical n)))
    ∧ buildEdgeList 2 [[(0 : Fin 4), 1, 2]] = [(1, 6), (6, 1)]
    ∧ buildEdgeList 1 [[(0 : Fin 4), 0]] = [(0, 0), (0, 0)] := by
  refine ⟨by simp [emitNode], ?_, by decide, by decide⟩
  intro p hp
  rcases List.mem_append.mp hp with hp | hp
  · obtain ⟨n, hn, he⟩ := List.mem_map.mp hp
    exact ⟨n, Or.inl hn, he.symm⟩
  · obtain ⟨n, hn, he⟩ := List.mem_map.mp hp
    exact ⟨n, Or.inr hn, he.symm⟩

/-- Witness for C3 at the node AC with only the outgoing-G bit set, whose
single emitted entry is (AC, CG) at the word level. -/
theorem C3_materializer_entries_witness :
    ∃ n, (n ∈ get_in_neighbors [(0 : Fin 4), 1] 64
        ∨ n ∈ get_out_neighbors [(0 : Fin 4), 1] 64)
      ∧ ((1, 6) : Nat × Nat)
          = (word0 (canonical [(0 : Fin 4), 1]), word0 (canonical n)) :=
  (C3_materializer_entries [(0 : Fin 4), 1] 64).2.1 (1, 6) (by decide)

/-- Claim C6: the read of 32 A's with k = 31 yields exactly 2 k-mer windows, both
equal to the 31-A window (so they share 30 overlapping symbols), and the
build produces exactly one distinct edge — a well-defined self-loop on the
canonical 31-A node. -/
theorem C6_polyA_scenario :
    (extract 31 (List.replicate 32 (0 : Fin 4))).length = 2
    ∧ (extract 31 (List.replicate 32 (0 : Fin 4))).map KTuple.km
        = [List.replicate 31 (0 : Fin 4), List.replicate 31 (0 : Fin 4)]
    ∧ (List.replicate 31 (0 : Fin 4)).drop 1
        = (List.replicate 31 (0 : Fin 4)).take 30
    ∧ (buildEdgeList 31 [List.replicate 32 (0 : Fin 4)]).dedup = [(0, 0)] :=
  ⟨by decide, by decide, by decide, by decide⟩

theorem mem_buildEdgeListDistrib (e : Nat × Nat) (k numWorkers : Nat)
    (hash : List Sym → Nat) (reads : List (List Sym)) (hN : 0 < numWorkers) :
    e ∈ buildEdgeListDistrib k numWorkers hash reads
      ↔ e ∈ buildEdgeList k reads := by
  rw [mem_buildEdgeList]
  unfold buildEdgeListDistrib
  simp only [List.mem_flatMap, List.mem_filter, List.mem_range]
  constructor
  · rintro ⟨w, _, c, ⟨hc, _⟩, he⟩
    exact ⟨c, hc, he⟩
  · rintro ⟨c, hc, he⟩
    exact ⟨hash c % numWorkers, Nat.mod_lt _ hN, c, ⟨hc, by simp⟩, he⟩

/-- Claim C4: for every read set, building with 1 worker and with N workers
yields the same set of emitted edges (for any sharding hash), each edge
merely coming out of some worker's shard. -/
theorem C4_worker_independence (k numWorkers : Nat) (hash : List Sym → Nat)
    (reads : List (List Sym)) (e : Nat × Nat) (hN : 0 < numWorkers) :
    (e ∈ buildEdgeListDistrib k numWorkers hash reads
      ↔ e ∈ buildEdgeList k reads)
    ∧ (e ∈ buildEdgeListDistrib k 1 hash reads ↔ e ∈ buildEdgeList k reads)
    ∧ (e ∈ buildEdgeListDistrib k numWorkers hash reads
      ↔ e ∈ buildEdgeListDistrib k 1 hash reads) := by
  have h1 := mem_buildEdgeListDistrib e k numWorkers hash reads hN
  have h2 := mem_buildEdgeListDistrib e k 1 hash reads (by omega)
  exact ⟨h1, h2, h1.trans h2.symm⟩

/-- Witness for C4 at the read ACG with k = 2, 3 workers sharded by the
packed value, on the edge (AC, CG). -/
theorem C4_worker_independence_witness :
    ((1, 6) ∈ buildEdgeListDistrib 2 3 encode [[(0 : Fin 4), 1, 2]]
      ↔ (1, 6) ∈ buildEdgeList 2 [[(0 : Fin 4), 1, 2]])
    ∧ ((1, 6) ∈ buildEdgeListDistrib 2 1 encode [[(0 : Fin 4), 1, 2]]
      ↔ (1, 6) ∈ buildEdgeList 2 [[(0 : Fin 4), 1, 2]])
    ∧ ((1, 6) ∈ buildEdgeListDistrib 2 3 encode [[(0 : Fin 4), 1, 2]]
      ↔ (1, 6) ∈ buildEdgeListDistrib 2 1 encode [[(0 : Fin 4), 1, 2]]) :=
  C4_worker_independence 2 3 encode [[(0 : Fin 4), 1, 2]] (1, 6) (by omega)

theorem allSome_map_some (w : List Sym) : allSome (w.map some) = some w := by
  induction w with
  | nil => rfl
  | cons s rest ih => simp [allSome, ih]

theorem join_map_some (o : Option Sym) : (o.map some).join = o := by
  cases o <;> rfl

theorem length_filterMap_eq_countP {α β : Type} (f : α → Option β) :
    ∀ (l : List α),
      (l.filterMap f).length = (l.filter (fun x => (f x).isSome)).length := by
  intro l
  induction l with
  | nil => rfl
  | cons a l ih =>
    rcases h : f a with _ | b
    · simp [List.filterMap_cons, List.filter_cons, h, ih]
    · simp [List.filterMap_cons, List.filter_cons, h, ih]

theorem filterMap_congr_mem {α β : Type} {f g : α → Option β} :
    ∀ {l : List α}, (∀ a ∈ l, f a = g a) → l.filterMap f = l.filterMap g := by
  intro l
  induction l with
  | nil => intro _; rfl
  | cons a l ih =>
    intro h
    rw [List.filterMap_cons, List.filterMap_cons,
      h a (List.mem_cons_self a l), ih (fun b hb => h b (List.mem_cons_of_mem a hb))]

theorem rawTupleAt_map_some (v : List Sym) (k i : Nat) :
    rawTupleAt (v.map some) k i = some (tupleAt v k i) := by
  unfold rawTupleAt tupleAt
  rw [← List.map_drop, ← List.map_take, allSome_map_some, Option.map_some']
  simp only [List.getElem?_map, join_map_some]

/-- Claim C8: extraction over a read with out-of-alphabet symbols is total and
emits exactly the windows whose k symbols are all valid (nothing for an
offending window, a tuple for every other window); on a fully valid read it
agrees with the plain extractor, and on the concrete read A?CG (with an
unknown second symbol, k = 2) only the CG window is emitted. -/
theorem C8_invalid_symbols (k : Nat) (r : List RawSym) (v : List Sym) :
    (extractRaw k r).length = validWindowCount k r
    ∧ (r = v.map some → extractRaw k r = extract k v)
    ∧ extractRaw 2 [some (0 : Fin 4), none, some 1, some 2]
        = [⟨[(1 : Fin 4), 2], none, none⟩] := by
  refine ⟨?_, fun hr => ?_, by decide⟩
  · unfold extractRaw validWindowCount
    rw [length_filterMap_eq_countP]
    congr 1
    apply List.filter_congr
    intro i _
    unfold rawTupleAt
    cases allSome ((r.drop i).take k) <;> rfl
  · subst hr
    unfold extractRaw extract
    rw [List.length_map,
      filterMap_congr_mem (fun i _ => rawTupleAt_map_some v k i)]
    induction List.range (v.length + 1 - k) with
    | nil => rfl
    | cons a l ih => rw [List.filterMap_cons, List.map_cons, ih]

/-- Witness for C8: fully valid read ACG with k = 2 (agreement with the
plain extractor) and the concrete partially invalid read. -/
theorem C8_invalid_symbols_witness :
    (extractRaw 2 ([(0 : Fin 4), 1, 2].map some)).length
        = validWindowCount 2 ([(0 : Fin 4), 1, 2].map some)
    ∧ extractRaw 2 ([(0 : Fin 4), 1, 2].map some) = extract 2 [(0 : Fin 4), 1, 2]
    ∧ extractRaw 2 [some (0 : Fin 4), none, some 1, some 2]
        = [⟨[(1 : Fin 4), 2], none, none⟩] := by
  have h := C8_invalid_symbols 2 ([(0 : Fin 4), 1, 2].map some) [(0 : Fin 4), 1, 2]
  exact ⟨h.1, h.2.1 rfl, h.2.2⟩

theorem getElem_idx_eq {α : Type} (l : List α) {a b : Nat} (hab : a = b)
    (ha : a < l.length) (hb : b < l.length) : l[a] = l[b] := by
  subst hab
  rfl

theorem revComp_ne_self (x : List Sym) (h : Odd x.length) : revComp x ≠ x := by
  intro he
  obtain ⟨m, hm⟩ := h
  have hmlt : m < x.length := by omega
  have h1 : (revComp x)[m]? = x[m]? := by rw [he]
  rw [revComp, List.getElem?_reverse (by simp; omega), List.getElem?_map] at h1
  simp only [List.length_map] at h1
  rw [show x.length - 1 - m = m from by omega,
    List.getElem?_eq_getElem hmlt] at h1
  simp only [Option.map_some', Option.some.injEq] at h1
  exact compl_ne_self _ h1

theorem insertMask_flip (t : KTuple) (h : Odd t.km.length) :
    canonical (flipTuple t).km = canonical t.km
    ∧ insertMask (flipTuple t) = insertMask t := by
  refine ⟨by simp [flipTuple, canonical_revComp], ?_⟩
  have hne : revComp t.km ≠ t.km := revComp_ne_self t.km h
  simp only [insertMask, flipTuple]
  rcases canonical_cases t.km with hc | hc
  · have hflip : canonical (revComp t.km) ≠ revComp t.km := by
      rw [canonical_revComp, hc]
      exact fun hh => hne hh.symm
    rw [if_pos hc, if_neg hflip, option_compl_compl, option_compl_compl]
  · have hcc : ¬ canonical t.km = t.km := by
      intro hh
      exact hne (by rw [← hc, hh])
    have hflip : canonical (revComp t.km) = revComp t.km := by
      rw [canonical_revComp, hc]
    rw [if_neg hcc, if_pos hflip]

theorem window_revComp (r : List Sym) (k i : Nat) (hik : i + k ≤ r.length) :
    ((revComp r).drop i).take k
      = revComp ((r.drop (r.length - k - i)).take k) := by
  apply List.ext_getElem
  · simp only [List.length_take, List.length_drop, length_revComp]
    omega
  · intro t h1 h2
    have hlen : t < k := by
      simp only [List.length_take, List.length_drop, length_revComp] at h1
      omega
    simp only [revComp, List.getElem_take, List.getElem_drop,
      List.getElem_reverse, List.getElem_map, List.length_map,
      List.length_take, List.length_drop, List.length_reverse]
    congr 1
    exact getElem_idx_eq r (by omega) (by omega) (by omega)

theorem tupleAt_revComp (r : List Sym) (k i : Nat)
    (h : i < r.length + 1 - k) :
    tupleAt (revComp r) k i = flipTuple (tupleAt r k (r.length - k - i)) := by
  have hik : i + k ≤ r.length := by omega
  simp only [tupleAt, flipTuple, KTuple.mk.injEq]
  refine ⟨window_revComp r k i hik, ?_, ?_⟩
  · -- predecessor of the flipped window = complemented successor
    show (if i = 0 then none else (revComp r)[i - 1]?)
      = (r[r.length - k - i + k]?).map compl
    rw [show r.length - k - i + k = r.length - i from by omega]
    rcases Nat.eq_zero_or_pos i with hi | hi
    · rw [if_pos hi, hi, Nat.sub_zero,
        List.getElem?_eq_none (le_refl r.length)]
      rfl
    · rw [if_neg (by omega)]
      have hlt : i - 1 < r.length := by omega
      rw [revComp, List.getElem?_reverse (by simp; omega), List.getElem?_map]
      simp only [List.length_map]
      rw [show r.length - 1 - (i - 1) = r.length - i from by omega]
  · -- successor of the flipped window = complemented predecessor
    show (revComp r)[i + k]?
      = ((if r.length - k - i = 0 then none else r[r.length - k - i - 1]?).map compl)
    rcases Nat.eq_zero_or_pos (r.length - k - i) with hj | hj
    · rw [if_pos hj]
      have : r.length ≤ i + k := by omega
      rw [List.getElem?_eq_none (by rw [length_revComp]; omega)]
      rfl
    · rw [if_neg (by omega)]
      have hlt : i + k < r.length := by omega
      rw [revComp, List.getElem?_reverse (by simp; omega), List.getElem?_map]
      simp only [List.length_map]
      rw [show r.length - 1 - (i + k) = r.length - k - i - 1 from by omega]

theorem extract_revComp (k : Nat) (r : List Sym) :
    extract k (revComp r) = ((extract k r).map flipTuple).reverse := by
  apply List.ext_getElem
  · simp [extract, length_revComp]
  · intro i h1 h2
    have hn : i < r.length + 1 - k := by
      simpa [extract_length, length_revComp] using h1
    simp only [extract, List.getElem_reverse, List.getElem_map,
      List.getElem_range, List.length_map, List.length_range, length_revComp]
    rw [tupleAt_revComp r k i hn]
    apply congrArg flipTuple
    apply congrArg (tupleAt r k)
    omega

theorem km_length_extract (k : Nat) (r : List Sym) :
    ∀ t ∈ extract k r, t.km.length = k := by
  intro t ht
  simp only [extract, List.mem_map, List.mem_range] at ht
  obtain ⟨i, hi, rfl⟩ := ht
  simp only [tupleAt, List.length_take, List.length_drop]
  omega

theorem recordOf_extract_revComp (k : Nat) (hk : Odd k) (r c : List Sym) :
    recordOf c (extract k (revComp r)) = recordOf c (extract k r) := by
  rw [extract_revComp, recordOf_reverse, recordOf_map_eq]
  intro t ht
  exact insertMask_flip t (km_length_extract k r t ht ▸ hk)

/-- Claim C5: with the source's odd window length, building from a single read
and building from its exact reverse complement produce the same set of
canonical k-mers and the same set of emitted edges; the proof goes through
the insert rule — a flipped canonicalization swaps the predecessor and
successor roles and complements the symbols, leaving each tuple's record
contribution unchanged. -/
theorem C5_strand_symmetry (k : Nat) (r : List Sym) (hk : Odd k) :
    (∀ c, c ∈ nodesOf (allTuples k [r])
        ↔ c ∈ nodesOf (allTuples k [revComp r]))
    ∧ (∀ e, e ∈ buildEdgeList k [r] ↔ e ∈ buildEdgeList k [revComp r]) := by
  have hAll : ∀ s : List Sym, allTuples k [s] = extract k s := by
    intro s
    simp [allTuples]
  have hnode : ∀ c, c ∈ nodesOf (extract k (revComp r))
      ↔ c ∈ nodesOf (extract k r) := by
    intro c
    rw [mem_nodesOf, mem_nodesOf, extract_revComp]
    constructor
    · rintro ⟨t, ht, hc⟩
      rw [List.mem_reverse, List.mem_map] at ht
      obtain ⟨u, hu, rfl⟩ := ht
      refine ⟨u, hu, ?_⟩
      rw [← hc]
      simp [flipTuple, canonical_revComp]
    · rintro ⟨t, ht, hc⟩
      refine ⟨flipTuple t, ?_, ?_⟩
      · rw [List.mem_reverse, List.mem_map]
        exact ⟨t, ht, rfl⟩
      · simp [flipTuple, canonical_revComp, hc]
  have hrec : ∀ c, recordOf c (extract k (revComp r))
      = recordOf c (extract k r) := recordOf_extract_revComp k hk r
  constructor
  · intro c
    rw [hAll, hAll]
    exact (hnode c).symm
  · intro e
    rw [mem_buildEdgeList, mem_buildEdgeList]
    simp only [hAll]
    constructor
    · rintro ⟨c, hc, he⟩
      exact ⟨c, (hnode c).mpr hc, by rw [hrec]; exact he⟩
    · rintro ⟨c, hc, he⟩
      exact ⟨c, (hnode c).mp hc, by rw [← hrec]; exact he⟩

/-- Witness for C5 at k = 3 on the read ACGTA. -/
theorem C5_strand_symmetry_witness :
    ([(0 : Fin 4), 1, 2] ∈ nodesOf (allTuples 3 [[(0 : Fin 4), 1, 2, 3, 0]])
      ↔ [(0 : Fin 4), 1, 2]
          ∈ nodesOf (allTuples 3 [revComp [(0 : Fin 4), 1, 2, 3, 0]]))
    ∧ ((6, 44) ∈ buildEdgeList 3 [[(0 : Fin 4), 1, 2, 3, 0]]
      ↔ (6, 44) ∈ buildEdgeList 3 [revComp [(0 : Fin 4), 1, 2, 3, 0]]) :=
  ⟨(C5_strand_symmetry 3 [(0 : Fin 4), 1, 2, 3, 0] (by decide)).1
      [(0 : Fin 4), 1, 2],
   (C5_strand_symmetry 3 [(0 : Fin 4), 1, 2, 3, 0] (by decide)).2 (6, 44)⟩

end DeBruijn
